import Mathlib

/-!
Verification development for the defacing verification metric engine
(`dicom_verifier/dicom_deface_verifier.py`).

The engine works on 3-D volumes stored as arrays of shape `(n₀, n₁, n₂)`.
We embed a volume as a function `Vox n₀ n₁ n₂ → ℚ` and a binary mask as a
function `Vox n₀ n₁ n₂ → Bool` (the numpy float samples are modelled by
rationals, which is exact for every arithmetic operation the code performs;
square roots and logarithms are modelled in `ℝ`).  Out-of-grid accesses are
modelled exactly as scipy's `border_value=0` convention: a lookup outside
the grid yields `false`.
-/

/-- Voxel index of a 3-D array of shape `(n₀, n₁, n₂)`. -/
abbrev Vox (n₀ n₁ n₂ : ℕ) := Fin n₀ × Fin n₁ × Fin n₂

/-- Binary mask on the grid, the embedding of a boolean numpy array. -/
abbrev Mask (n₀ n₁ n₂ : ℕ) := Vox n₀ n₁ n₂ → Bool

/-- Volumetric image on the grid, the embedding of a float numpy array. -/
abbrev Img (n₀ n₁ n₂ : ℕ) := Vox n₀ n₁ n₂ → ℚ

variable {n₀ n₁ n₂ : ℕ}

/-- Integer coordinates of a voxel. -/
def zc (v : Vox n₀ n₁ n₂) : ℤ × ℤ × ℤ :=
  ((v.1 : ℤ), (v.2.1 : ℤ), (v.2.2 : ℤ))

/-- Mask lookup at integer coordinates; positions outside the grid read as
`false`, which is scipy's `border_value=0` convention for morphology. -/
def getZ (m : Mask n₀ n₁ n₂) (p : ℤ × ℤ × ℤ) : Bool :=
  if h : 0 ≤ p.1 ∧ p.1 < (n₀ : ℤ) ∧ 0 ≤ p.2.1 ∧ p.2.1 < (n₁ : ℤ) ∧
      0 ≤ p.2.2 ∧ p.2.2 < (n₂ : ℤ) then
    m (⟨p.1.toNat, by omega⟩, ⟨p.2.1.toNat, by omega⟩, ⟨p.2.2.toNat, by omega⟩)
  else false

/-- Offsets of `ndimage.generate_binary_structure(3, 1)`, the face-connected
(6-neighbour) structuring element, origin excluded. -/
def offs6 : List (ℤ × ℤ × ℤ) :=
  [(1, 0, 0), (-1, 0, 0), (0, 1, 0), (0, -1, 0), (0, 0, 1), (0, 0, -1)]

/-- One step of `ndimage.binary_dilation` with the 6-connected structure. -/
def dilateM (m : Mask n₀ n₁ n₂) : Mask n₀ n₁ n₂ :=
  fun v => m v || offs6.any (fun d => getZ m (zc v + d))

/-- One step of `ndimage.binary_erosion` with the 6-connected structure and
`border_value=0` (an off-grid neighbour always fails the erosion test). -/
def erodeM (m : Mask n₀ n₁ n₂) : Mask n₀ n₁ n₂ :=
  fun v => m v && offs6.all (fun d => getZ m (zc v + d))

/-- Surface extraction `m ^ binary_erosion(m, s)` used by both surface
metrics. -/
def surfaceM (m : Mask n₀ n₁ n₂) : Mask n₀ n₁ n₂ :=
  fun v => xor (m v) (erodeM m v)

/-- Support of a mask as a finite set of voxels. -/
def supp (m : Mask n₀ n₁ n₂) : Finset (Vox n₀ n₁ n₂) :=
  Finset.univ.filter (fun v => m v = true)

/-!
Verification gate (`DefacingVerifier.TARGETS` and
`DefacingVerifier._check_pass`).  The metric scalars are modelled as
rationals; `hd95` and `psnr` may be the float `inf`, hence `WithTop ℚ`.
-/

/-- Record of the fixed verification targets (`DefacingVerifier.TARGETS`). -/
structure VerificationTargets where
  surface_dsc : ℚ
  hd95_mm : ℚ
  ssim_def : ℚ
  psnr_def_db : ℚ

/-- Embedding of the class constant `DefacingVerifier.TARGETS`. -/
def TARGETS : VerificationTargets :=
  { surface_dsc := 80 / 100
    hd95_mm := 30
    ssim_def := 80 / 100
    psnr_def_db := 10 }

/-- Embedding of `DefacingVerifier._check_pass`. -/
def _check_pass (dsc : ℚ) (hd95 : WithTop ℚ) (ssim : ℚ) (psnr : WithTop ℚ) :
    Bool :=
  decide (TARGETS.surface_dsc ≤ dsc ∧ hd95 ≤ (TARGETS.hd95_mm : WithTop ℚ) ∧
    ssim ≤ TARGETS.ssim_def ∧ psnr ≤ (TARGETS.psnr_def_db : WithTop ℚ))

/-!
ROI builder (`DefacingVerifier.clip_to_roi`).
-/

/-- Per-axis dilation iteration count `max(1, int(np.ceil(margin_mm / s)))`.
Python's `int` truncates toward zero, which is exact on the integral output
of `ceil`. -/
def iterCount (margin s : ℚ) : ℤ := max 1 ⌈margin / s⌉

/-- Embedding of `DefacingVerifier.clip_to_roi`: dilate the anchor with the
face-connected structure for `max(iters)` iterations and intersect the given
mask with the resulting ROI. -/
def clip_to_roi (mask anchor : Mask n₀ n₁ n₂) (spacing : ℚ × ℚ × ℚ)
    (margin_mm : ℚ) : Mask n₀ n₁ n₂ :=
  let k : ℕ := (max (iterCount margin_mm spacing.1)
    (max (iterCount margin_mm spacing.2.1)
      (iterCount margin_mm spacing.2.2))).toNat
  let roi := dilateM^[k] anchor
  fun v => mask v && roi v

theorem dilateM_superset (m : Mask n₀ n₁ n₂) (v : Vox n₀ n₁ n₂)
    (h : m v = true) : dilateM m v = true := by
  simp [dilateM, h]

theorem iterate_dilateM_superset (k : ℕ) (m : Mask n₀ n₁ n₂)
    (v : Vox n₀ n₁ n₂) (h : m v = true) : (dilateM^[k] m) v = true := by
  induction k generalizing m with
  | zero => simpa using h
  | succ k ih =>
    rw [Function.iterate_succ_apply]
    exact ih _ (dilateM_superset m v h)

/-- C4: the ROI produced by `clip_to_roi` with an all-ones mask contains the
anchor mask, for every strictly positive spacing and margin ≥ 0. -/
theorem C4_roi_superset (anchor : Mask n₀ n₁ n₂) (spacing : ℚ × ℚ × ℚ)
    (margin_mm : ℚ)
    (hsp : 0 < spacing.1 ∧ 0 < spacing.2.1 ∧ 0 < spacing.2.2)
    (hm : 0 ≤ margin_mm) (v : Vox n₀ n₁ n₂) (hv : anchor v = true) :
    clip_to_roi (fun _ => true) anchor spacing margin_mm v = true := by
  simp only [clip_to_roi, Bool.true_and]
  exact iterate_dilateM_superset _ anchor v hv

/-- Witness for C4 at a concrete input: a single-voxel anchor on a 1×1×1
grid with unit spacing and the default margin 30. -/
theorem C4_roi_superset_witness :
    (0 < (1 : ℚ) ∧ 0 < (1 : ℚ) ∧ 0 < (1 : ℚ)) ∧ (0 : ℚ) ≤ 30 ∧
      clip_to_roi ((fun _ => true) : Mask 1 1 1)
        (fun _ => true) (1, 1, 1) 30 (0, 0, 0) = true :=
  ⟨by norm_num, by norm_num,
    C4_roi_superset (fun _ => true) (1, 1, 1) 30 (by norm_num) (by norm_num)
      (0, 0, 0) rfl⟩

/-- C5: `clip_to_roi` dilates the anchor with the 6-connected structuring
element for exactly the maximum over the three axes of
`max(1, ceil(margin / spacing_axis))` iterations, applied isotropically as a
single count. -/
theorem C5_iteration_rule (mask anchor : Mask n₀ n₁ n₂)
    (spacing : ℚ × ℚ × ℚ) (margin_mm : ℚ)
    (hsp : 0 < spacing.1 ∧ 0 < spacing.2.1 ∧ 0 < spacing.2.2) :
    clip_to_roi mask anchor spacing margin_mm = fun v =>
      mask v &&
        (dilateM^[max (max 1 ⌈margin_mm / spacing.1⌉).toNat
          (max (max 1 ⌈margin_mm / spacing.2.1⌉).toNat
            (max 1 ⌈margin_mm / spacing.2.2⌉).toNat)] anchor) v := by
  have h : (max (iterCount margin_mm spacing.1)
      (max (iterCount margin_mm spacing.2.1)
        (iterCount margin_mm spacing.2.2))).toNat =
      max (max 1 ⌈margin_mm / spacing.1⌉).toNat
        (max (max 1 ⌈margin_mm / spacing.2.1⌉).toNat
          (max 1 ⌈margin_mm / spacing.2.2⌉).toNat) := by
    simp only [iterCount]; omega
  simp only [clip_to_roi, h]

/-- Witness for C5 at a concrete anisotropic spacing. -/
theorem C5_iteration_rule_witness :
    (0 < (2 : ℚ) ∧ 0 < (3 : ℚ) ∧ 0 < (5 : ℚ)) ∧
      clip_to_roi ((fun _ => true) : Mask 1 1 1)
          (fun _ => false) (2, 3, 5) 30 = fun v =>
        (fun _ => true) v &&
          (dilateM^[max (max 1 ⌈(30 : ℚ) / 2⌉).toNat
            (max (max 1 ⌈(30 : ℚ) / 3⌉).toNat
              (max 1 ⌈(30 : ℚ) / 5⌉).toNat)] (fun _ => false)) v :=
  ⟨by norm_num,
    C5_iteration_rule (fun _ => true) (fun _ => false) (2, 3, 5) 30
      (by norm_num)⟩

/-- C1: the verification gate is a pure function of the four scalar metrics
and passes exactly when surface_dsc ≥ 0.80, hd95 ≤ 30.00, ssim ≤ 0.80 and
psnr ≤ 10.00, against the fixed `TARGETS`. -/
theorem C1_gate_iff (dsc : ℚ) (hd95 : WithTop ℚ) (ssim : ℚ)
    (psnr : WithTop ℚ) :
    _check_pass dsc hd95 ssim psnr = true ↔
      ((0.80 : ℚ) ≤ dsc ∧ hd95 ≤ ((30.00 : ℚ) : WithTop ℚ) ∧
        ssim ≤ (0.80 : ℚ) ∧ psnr ≤ ((10.00 : ℚ) : WithTop ℚ)) := by
  simp only [_check_pass, TARGETS, decide_eq_true_eq]
  norm_num

/-!
Surface metric engine (`DefacingVerifier.surface_dsc` and
`DefacingVerifier.hd95_dt`).
-/

/-- Squared physical distance between two voxels under per-axis spacing,
the square of the Euclidean metric used by
`ndimage.distance_transform_edt(..., sampling=spacing)`. -/
def sqd (sp : ℚ × ℚ × ℚ) (u v : Vox n₀ n₁ n₂) : ℚ :=
  (sp.1 * (((u.1 : ℕ) : ℚ) - ((v.1 : ℕ) : ℚ))) ^ 2 +
    (sp.2.1 * (((u.2.1 : ℕ) : ℚ) - ((v.2.1 : ℕ) : ℚ))) ^ 2 +
    (sp.2.2 * (((u.2.2 : ℕ) : ℚ) - ((v.2.2 : ℕ) : ℚ))) ^ 2

open Classical in
/-- Value at voxel `v` of `ndimage.distance_transform_edt(~s, sampling=sp)`:
the minimum physical Euclidean distance from `v` to a voxel of `s` (the
minimum of square roots equals the square root of the minimum of the
squared distances; we take the minimum over the distances themselves). -/
noncomputable def dtReal (sp : ℚ × ℚ × ℚ) (s : Finset (Vox n₀ n₁ n₂))
    (v : Vox n₀ n₁ n₂) : ℝ :=
  ((s.image fun u => Real.sqrt (sqd sp u v)).min).untop' 0

/-- Linear-interpolation percentile of an already sorted list, the formula
of `np.percentile` with its default interpolation: with `n` data points the
virtual index is `h = (n-1)·q/100` and the result interpolates between the
order statistics at `⌊h⌋` and `⌊h⌋+1`. -/
noncomputable def percInterp (s : List ℝ) (hq : ℚ) : ℝ :=
  s.getD ⌊hq⌋.toNat 0 +
    ((hq : ℝ) - (⌊hq⌋.toNat : ℝ)) *
      (s.getD (⌊hq⌋.toNat + 1) (s.getD ⌊hq⌋.toNat 0) - s.getD ⌊hq⌋.toNat 0)

noncomputable def percentileOfSorted (s : List ℝ) (q : ℚ) : ℝ :=
  if s.length = 0 then 0
  else percInterp s (((s.length - 1 : ℕ) : ℚ) * q / 100)

open Classical in
/-- Embedding of `np.percentile(xs, q)`: sort, then interpolate. -/
noncomputable def npPercentile (xs : List ℝ) (q : ℚ) : ℝ :=
  percentileOfSorted (xs.insertionSort (fun x y => x ≤ y)) q

theorem npPercentile_perm (xs ys : List ℝ) (h : xs.Perm ys) (q : ℚ) :
    npPercentile xs q = npPercentile ys q := by
  unfold npPercentile
  haveI : IsAntisymm ℝ (fun x y : ℝ => x ≤ y) := ⟨fun _ _ => le_antisymm⟩
  haveI : IsTotal ℝ (fun x y : ℝ => x ≤ y) := ⟨le_total⟩
  haveI : IsTrans ℝ (fun x y : ℝ => x ≤ y) := ⟨fun _ _ _ => le_trans⟩
  congr 1
  exact List.eq_of_perm_of_sorted
    (((List.perm_insertionSort _ xs).trans h).trans
      (List.perm_insertionSort _ ys).symm)
    (List.sorted_insertionSort (fun x y : ℝ => x ≤ y) xs)
    (List.sorted_insertionSort (fun x y : ℝ => x ≤ y) ys)

theorem percentileOfSorted_all_zero (s : List ℝ) (h : ∀ x ∈ s, x = 0)
    (q : ℚ) : percentileOfSorted s q = 0 := by
  have hget : ∀ (i : ℕ) (d : ℝ), d = 0 → s.getD i d = 0 := by
    intro i d hd
    rcases lt_or_ge i s.length with hi | hi
    · rw [List.getD_eq_getElem _ _ hi]
      exact h _ (List.getElem_mem hi)
    · rw [List.getD_eq_default _ _ hi, hd]
  unfold percentileOfSorted percInterp
  split
  · rfl
  · rw [hget _ _ rfl, hget _ _ rfl]
    ring

theorem npPercentile_all_zero (xs : List ℝ) (h : ∀ x ∈ xs, x = 0) (q : ℚ) :
    npPercentile xs q = 0 := by
  unfold npPercentile
  refine percentileOfSorted_all_zero _ ?_ q
  intro x hx
  exact h x ((List.perm_insertionSort _ xs).mem_iff.mp hx)

open Classical in
/-- Embedding of `DefacingVerifier.surface_dsc`: fraction of surface voxels
of each mask lying within `tol_mm` of the other mask's surface, with the
empty-mask sentinel guards of the source. -/
noncomputable def surface_dsc (a b : Mask n₀ n₁ n₂) (spacing : ℚ × ℚ × ℚ)
    (tol_mm : ℚ) : ℝ :=
  if (¬ ∃ v, a v = true) ∧ (¬ ∃ v, b v = true) then 1
  else if (¬ ∃ v, a v = true) ∨ (¬ ∃ v, b v = true) then 0
  else
    ((((supp (surfaceM a)).filter fun v =>
        dtReal spacing (supp (surfaceM b)) v ≤ (tol_mm : ℝ)).card +
      ((supp (surfaceM b)).filter fun v =>
        dtReal spacing (supp (surfaceM a)) v ≤ (tol_mm : ℝ)).card : ℕ) : ℝ) /
      ((max ((supp (surfaceM a)).card + (supp (surfaceM b)).card) 1 : ℕ) : ℝ)

open Classical in
/-- Embedding of `DefacingVerifier.hd95_dt`: 95th percentile of the pooled
symmetric surface-to-surface distances, with the empty-mask sentinel guards
of the source. -/
noncomputable def hd95_dt (a b : Mask n₀ n₁ n₂) (spacing : ℚ × ℚ × ℚ) :
    WithTop ℝ :=
  if (¬ ∃ v, a v = true) ∧ (¬ ∃ v, b v = true) then 0
  else if (¬ ∃ v, a v = true) ∨ (¬ ∃ v, b v = true) then ⊤
  else
    if ((supp (surfaceM a)).toList.map (dtReal spacing (supp (surfaceM b)))).length = 0 ∨
        ((supp (surfaceM b)).toList.map (dtReal spacing (supp (surfaceM a)))).length = 0 then ⊤
    else ((npPercentile
      ((supp (surfaceM a)).toList.map (dtReal spacing (supp (surfaceM b))) ++
        (supp (surfaceM b)).toList.map (dtReal spacing (supp (surfaceM a)))) 95 : ℝ) : WithTop ℝ)

/-- C2: degenerate-input sentinels of the surface metrics.  Both masks
empty gives surface DSC 1.0 and HD95 0.0; exactly one empty gives surface
DSC 0.0 and HD95 +∞; the functions are total, so no error is raised. -/
theorem C2_degenerate_sentinels (a b : Mask n₀ n₁ n₂)
    (spacing : ℚ × ℚ × ℚ) (tol_mm : ℚ)
    (hsp : 0 < spacing.1 ∧ 0 < spacing.2.1 ∧ 0 < spacing.2.2) :
    ((∀ v, a v = false) ∧ (∀ v, b v = false) →
      surface_dsc a b spacing tol_mm = 1 ∧ hd95_dt a b spacing = 0) ∧
    ((((∀ v, a v = false) ∧ ∃ v, b v = true) ∨
      ((∃ v, a v = true) ∧ ∀ v, b v = false)) →
      surface_dsc a b spacing tol_mm = 0 ∧ hd95_dt a b spacing = ⊤) := by
  constructor
  · rintro ⟨ha, hb⟩
    have ha' : ¬ ∃ v, a v = true := by
      rintro ⟨v, hv⟩; rw [ha v] at hv; exact Bool.false_ne_true hv
    have hb' : ¬ ∃ v, b v = true := by
      rintro ⟨v, hv⟩; rw [hb v] at hv; exact Bool.false_ne_true hv
    constructor
    · rw [surface_dsc, if_pos ⟨ha', hb'⟩]
    · rw [hd95_dt, if_pos ⟨ha', hb'⟩]
  · intro hone
    have hcond : ((¬ ∃ v, a v = true) ∨ (¬ ∃ v, b v = true)) ∧
        ¬ ((¬ ∃ v, a v = true) ∧ (¬ ∃ v, b v = true)) := by
      rcases hone with ⟨ha, hb⟩ | ⟨ha, hb⟩
      · have ha' : ¬ ∃ v, a v = true := by
          rintro ⟨v, hv⟩; rw [ha v] at hv; exact Bool.false_ne_true hv
        exact ⟨Or.inl ha', fun hc => hc.2 hb⟩
      · have hb' : ¬ ∃ v, b v = true := by
          rintro ⟨v, hv⟩; rw [hb v] at hv; exact Bool.false_ne_true hv
        exact ⟨Or.inr hb', fun hc => hc.1 ha⟩
    constructor
    · rw [surface_dsc, if_neg hcond.2, if_pos hcond.1]
    · rw [hd95_dt, if_neg hcond.2, if_pos hcond.1]

/-- Witness for C2 on a concrete 1×1×1 grid: empty vs full mask. -/
theorem C2_degenerate_sentinels_witness :
    (0 < (1 : ℚ) ∧ 0 < (1 : ℚ) ∧ 0 < (1 : ℚ)) ∧
      surface_dsc ((fun _ => false) : Mask 1 1 1)
        (fun _ => true) (1, 1, 1) 5 = 0 ∧
      hd95_dt ((fun _ => false) : Mask 1 1 1)
        (fun _ => true) (1, 1, 1) = ⊤ :=
  ⟨by norm_num,
    ((C2_degenerate_sentinels (fun _ => false) (fun _ => true) (1, 1, 1) 5
      (by norm_num)).2 (Or.inl ⟨fun _ => rfl, ⟨(0, 0, 0), rfl⟩⟩)).1,
    ((C2_degenerate_sentinels (fun _ => false) (fun _ => true) (1, 1, 1) 5
      (by norm_num)).2 (Or.inl ⟨fun _ => rfl, ⟨(0, 0, 0), rfl⟩⟩)).2⟩

theorem getZ_zc (m : Mask n₀ n₁ n₂) (v : Vox n₀ n₁ n₂) :
    getZ m (zc v) = m v := by
  have h0 := v.1.isLt
  have h1 := v.2.1.isLt
  have h2 := v.2.2.isLt
  unfold getZ
  rw [dif_pos (by simp only [zc]; omega)]
  apply congrArg
  refine Prod.ext (Fin.ext ?_) (Prod.ext (Fin.ext ?_) (Fin.ext ?_)) <;>
    simp [zc]

theorem getZ_eq_true_iff (m : Mask n₀ n₁ n₂) (p : ℤ × ℤ × ℤ) :
    getZ m p = true ↔ ∃ v, zc v = p ∧ m v = true := by
  constructor
  · intro h
    unfold getZ at h
    split at h
    case isTrue hc =>
      refine ⟨_, ?_, h⟩
      simp only [zc, Prod.ext_iff]
      refine ⟨?_, ?_, ?_⟩ <;> simp <;> omega
    case isFalse hc => exact absurd h (by simp)
  · rintro ⟨v, rfl, hmv⟩
    rw [getZ_zc]
    exact hmv

/-- A nonempty mask on a finite grid always has a nonempty surface: a voxel
of the mask with maximal first coordinate fails the erosion test at its
`+x` neighbour (which is off-grid or outside the mask). -/
theorem surfaceM_exists (m : Mask n₀ n₁ n₂) (h : ∃ v, m v = true) :
    ∃ v, surfaceM m v = true := by
  obtain ⟨v₀, hv₀⟩ := h
  obtain ⟨v, hv, hmax⟩ := Finset.exists_max_image (supp m)
    (fun v => (v.1 : ℕ)) ⟨v₀, by simp [supp, hv₀]⟩
  have hmv : m v = true := by simpa [supp] using hv
  have hnb : getZ m (zc v + ((1 : ℤ), (0 : ℤ), (0 : ℤ))) = false := by
    rw [Bool.eq_false_iff]
    intro hc
    rw [getZ_eq_true_iff] at hc
    obtain ⟨u, hu, hmu⟩ := hc
    have h1 : (u.1 : ℤ) = (v.1 : ℤ) + 1 := by
      have := congrArg Prod.fst hu
      simpa [zc] using this
    have hle : (u.1 : ℕ) ≤ (v.1 : ℕ) := hmax u (by simp [supp, hmu])
    omega
  refine ⟨v, ?_⟩
  have he : erodeM m v = false := by
    simp only [erodeM, offs6, List.all_cons, List.all_nil, Bool.and_true]
    rw [hnb]
    simp
  simp [surfaceM, hmv, he]

theorem dtReal_self_zero (sp : ℚ × ℚ × ℚ) (s : Finset (Vox n₀ n₁ n₂))
    (v : Vox n₀ n₁ n₂) (hv : v ∈ s) : dtReal sp s v = 0 := by
  unfold dtReal
  have h0 : Real.sqrt (sqd sp v v) = 0 := by
    have hz : sqd sp v v = 0 := by simp [sqd]
    rw [hz]
    simp
  have hmem : (0 : ℝ) ∈ s.image fun u => Real.sqrt (sqd sp u v) := by
    rw [Finset.mem_image]
    exact ⟨v, hv, h0⟩
  have hle : (s.image fun u => Real.sqrt (sqd sp u v)).min ≤
      ((0 : ℝ) : WithTop ℝ) := Finset.min_le hmem
  have hge : ((0 : ℝ) : WithTop ℝ) ≤
      (s.image fun u => Real.sqrt (sqd sp u v)).min := by
    refine Finset.le_min ?_
    intro y hy
    rw [Finset.mem_image] at hy
    obtain ⟨u, hu, rfl⟩ := hy
    exact_mod_cast Real.sqrt_nonneg _
  rw [le_antisymm hle hge]
  rfl

/-- C3: self-agreement identity.  A non-empty mask compared against itself
has surface DSC exactly 1.0 and HD95 exactly 0.0 (at the source's default
tolerance of 5 mm). -/
theorem C3_self_agreement (a : Mask n₀ n₁ n₂) (spacing : ℚ × ℚ × ℚ)
    (hne : ∃ v, a v = true)
    (hsp : 0 < spacing.1 ∧ 0 < spacing.2.1 ∧ 0 < spacing.2.2) :
    surface_dsc a a spacing 5 = 1 ∧ hd95_dt a a spacing = 0 := by
  have hg1 : ¬ ((¬ ∃ v, a v = true) ∧ (¬ ∃ v, a v = true)) :=
    fun hc => hc.1 hne
  have hg2 : ¬ ((¬ ∃ v, a v = true) ∨ (¬ ∃ v, a v = true)) :=
    fun hc => hc.elim (fun h => h hne) (fun h => h hne)
  obtain ⟨w, hw⟩ := surfaceM_exists a hne
  have hwsa : w ∈ supp (surfaceM a) := by simp [supp, hw]
  have hcard : 0 < (supp (surfaceM a)).card := Finset.card_pos.mpr ⟨w, hwsa⟩
  have hdt : ∀ v ∈ supp (surfaceM a),
      dtReal spacing (supp (surfaceM a)) v = 0 :=
    fun v hv => dtReal_self_zero spacing _ v hv
  constructor
  · rw [surface_dsc, if_neg hg1, if_neg hg2]
    have hfil : (supp (surfaceM a)).filter
        (fun v => dtReal spacing (supp (surfaceM a)) v ≤ ((5 : ℚ) : ℝ)) =
        supp (surfaceM a) := by
      refine Finset.filter_eq_self.mpr ?_
      intro v hv
      rw [hdt v hv]
      norm_num
    rw [hfil]
    have hmax : max ((supp (surfaceM a)).card + (supp (surfaceM a)).card) 1 =
        (supp (surfaceM a)).card + (supp (surfaceM a)).card := by omega
    rw [hmax]
    have hne0 : (((supp (surfaceM a)).card + (supp (surfaceM a)).card : ℕ) : ℝ) ≠ 0 := by
      exact_mod_cast by omega
    exact div_self hne0
  · rw [hd95_dt, if_neg hg1, if_neg hg2]
    have hlen : ((supp (surfaceM a)).toList.map
        (dtReal spacing (supp (surfaceM a)))).length ≠ 0 := by
      rw [List.length_map, Finset.length_toList]
      omega
    rw [if_neg (by push_neg; exact ⟨hlen, hlen⟩)]
    have hz : npPercentile
        ((supp (surfaceM a)).toList.map (dtReal spacing (supp (surfaceM a))) ++
          (supp (surfaceM a)).toList.map (dtReal spacing (supp (surfaceM a)))) 95 = 0 := by
      refine npPercentile_all_zero _ ?_ 95
      intro x hx
      rw [List.mem_append] at hx
      rcases hx with hx | hx <;>
      · rw [List.mem_map] at hx
        obtain ⟨v, hv, rfl⟩ := hx
        exact hdt v (by rwa [Finset.mem_toList] at hv)
    rw [hz]
    rfl

set_option maxHeartbeats 1000000 in
/-- Witness for C3: the full mask on a 1×1×1 grid with unit spacing. -/
theorem C3_self_agreement_witness :
    (∃ v : Vox 1 1 1, (fun _ => true) v = true) ∧
      surface_dsc ((fun _ => true) : Mask 1 1 1)
        (fun _ => true) (1, 1, 1) 5 = 1 ∧
      hd95_dt ((fun _ => true) : Mask 1 1 1)
        (fun _ => true) (1, 1, 1) = 0 :=
  ⟨⟨(0, 0, 0), rfl⟩,
    (C3_self_agreement (fun _ => true) (1, 1, 1) ⟨(0, 0, 0), rfl⟩
      (by norm_num)).1,
    (C3_self_agreement (fun _ => true) (1, 1, 1) ⟨(0, 0, 0), rfl⟩
      (by norm_num)).2⟩

/-- C10: the surface metrics are symmetric in their two mask arguments. -/
theorem C10_surface_metric_symmetry (a b : Mask n₀ n₁ n₂)
    (spacing : ℚ × ℚ × ℚ) (tol_mm : ℚ)
    (hsp : 0 < spacing.1 ∧ 0 < spacing.2.1 ∧ 0 < spacing.2.2) :
    surface_dsc a b spacing tol_mm = surface_dsc b a spacing tol_mm ∧
      hd95_dt a b spacing = hd95_dt b a spacing := by
  by_cases hA : ∃ v, a v = true <;> by_cases hB : ∃ v, b v = true
  · have h1 : ¬ ((¬ ∃ v, a v = true) ∧ (¬ ∃ v, b v = true)) :=
      fun hc => hc.1 hA
    have h1x : ¬ ((¬ ∃ v, b v = true) ∧ (¬ ∃ v, a v = true)) :=
      fun hc => hc.2 hA
    have h2 : ¬ ((¬ ∃ v, a v = true) ∨ (¬ ∃ v, b v = true)) :=
      fun hc => hc.elim (fun h => h hA) (fun h => h hB)
    have h2x : ¬ ((¬ ∃ v, b v = true) ∨ (¬ ∃ v, a v = true)) :=
      fun hc => hc.elim (fun h => h hB) (fun h => h hA)
    constructor
    · rw [surface_dsc, surface_dsc, if_neg h1, if_neg h1x, if_neg h2,
        if_neg h2x]
      congr 1
      · exact_mod_cast Nat.add_comm _ _
      · have h3 : (supp (surfaceM a)).card + (supp (surfaceM b)).card =
            (supp (surfaceM b)).card + (supp (surfaceM a)).card :=
          Nat.add_comm _ _
        rw [h3]
    · rw [hd95_dt, hd95_dt, if_neg h1, if_neg h1x, if_neg h2, if_neg h2x]
      by_cases hL :
        ((supp (surfaceM a)).toList.map
          (dtReal spacing (supp (surfaceM b)))).length = 0 ∨
        ((supp (surfaceM b)).toList.map
          (dtReal spacing (supp (surfaceM a)))).length = 0
      · rw [if_pos hL, if_pos hL.symm]
      · rw [if_neg hL, if_neg (fun hc => hL hc.symm)]
        exact congrArg _ (npPercentile_perm _ _ List.perm_append_comm 95)
  · have h1 : ¬ ((¬ ∃ v, a v = true) ∧ (¬ ∃ v, b v = true)) :=
      fun hc => hc.1 hA
    have h1x : ¬ ((¬ ∃ v, b v = true) ∧ (¬ ∃ v, a v = true)) :=
      fun hc => hc.2 hA
    have h2 : (¬ ∃ v, a v = true) ∨ (¬ ∃ v, b v = true) := Or.inr hB
    have h2x : (¬ ∃ v, b v = true) ∨ (¬ ∃ v, a v = true) := Or.inl hB
    constructor
    · rw [surface_dsc, surface_dsc, if_neg h1, if_neg h1x, if_pos h2,
        if_pos h2x]
    · rw [hd95_dt, hd95_dt, if_neg h1, if_neg h1x, if_pos h2, if_pos h2x]
  · have h1 : ¬ ((¬ ∃ v, a v = true) ∧ (¬ ∃ v, b v = true)) :=
      fun hc => hc.2 hB
    have h1x : ¬ ((¬ ∃ v, b v = true) ∧ (¬ ∃ v, a v = true)) :=
      fun hc => hc.1 hB
    have h2 : (¬ ∃ v, a v = true) ∨ (¬ ∃ v, b v = true) := Or.inl hA
    have h2x : (¬ ∃ v, b v = true) ∨ (¬ ∃ v, a v = true) := Or.inr hA
    constructor
    · rw [surface_dsc, surface_dsc, if_neg h1, if_neg h1x, if_pos h2,
        if_pos h2x]
    · rw [hd95_dt, hd95_dt, if_neg h1, if_neg h1x, if_pos h2, if_pos h2x]
  · constructor
    · rw [surface_dsc, surface_dsc, if_pos ⟨hA, hB⟩, if_pos ⟨hB, hA⟩]
    · rw [hd95_dt, hd95_dt, if_pos ⟨hA, hB⟩, if_pos ⟨hB, hA⟩]

set_option maxHeartbeats 1000000 in
/-- Witness for C10 at a concrete pair of masks on a 1×1×1 grid. -/
theorem C10_surface_metric_symmetry_witness :
    (0 < (1 : ℚ) ∧ 0 < (1 : ℚ) ∧ 0 < (1 : ℚ)) ∧
      surface_dsc ((fun _ => true) : Mask 1 1 1) (fun _ => false)
          (1, 1, 1) 5 =
        surface_dsc ((fun _ => false) : Mask 1 1 1) (fun _ => true)
          (1, 1, 1) 5 ∧
      hd95_dt ((fun _ => true) : Mask 1 1 1) (fun _ => false) (1, 1, 1) =
        hd95_dt ((fun _ => false) : Mask 1 1 1) (fun _ => true) (1, 1, 1) :=
  ⟨by norm_num,
    (C10_surface_metric_symmetry (fun _ => true) (fun _ => false) (1, 1, 1) 5
      (by norm_num)).1,
    (C10_surface_metric_symmetry (fun _ => true) (fun _ => false) (1, 1, 1) 5
      (by norm_num)).2⟩

/-!
Intensity normalizer (`DefacingVerifier._global_rescale`) and masked PSNR
(`DefacingVerifier.calculate_psnr_masked`).
-/

/-- Row-major (numpy C-order) enumeration of all voxels, the order in which
numpy flattens an array or gathers boolean-indexed values. -/
def rasterList (n₀ n₁ n₂ : ℕ) : List (Vox n₀ n₁ n₂) :=
  (List.finRange n₀).flatMap fun i =>
    (List.finRange n₁).flatMap fun j =>
      (List.finRange n₂).map fun k => (i, j, k)

/-- Flattened list of all samples of an image (`img.ravel()`). -/
def volVals (img : Img n₀ n₁ n₂) : List ℚ := (rasterList n₀ n₁ n₂).map img

/-- Samples of `img` selected by a boolean mask (`img[fg]`). -/
def maskedVals (img : Img n₀ n₁ n₂) (fg : Mask n₀ n₁ n₂) : List ℚ :=
  ((rasterList n₀ n₁ n₂).filter fun v => fg v).map img

/-- Interpolation step of `np.percentile` over rationals (exact for the
source's float arithmetic on the values the claims use). -/
def percInterpQ (s : List ℚ) (hq : ℚ) : ℚ :=
  s.getD ⌊hq⌋.toNat 0 +
    (hq - (⌊hq⌋.toNat : ℚ)) *
      (s.getD (⌊hq⌋.toNat + 1) (s.getD ⌊hq⌋.toNat 0) - s.getD ⌊hq⌋.toNat 0)

def percentileOfSortedQ (s : List ℚ) (q : ℚ) : ℚ :=
  if s.length = 0 then 0
  else percInterpQ s (((s.length - 1 : ℕ) : ℚ) * q / 100)

/-- Computable embedding of `np.percentile(xs, q)` on rational samples. -/
def percentileQ (xs : List ℚ) (q : ℚ) : ℚ :=
  percentileOfSortedQ (xs.insertionSort fun x y => x ≤ y) q

/-- Value of `np.min` on a (nonempty in every use) list of samples. -/
def listMinQ : List ℚ → ℚ
  | [] => 0
  | x :: xs => xs.foldl min x

/-- Value of `np.max` on a (nonempty in every use) list of samples. -/
def listMaxQ : List ℚ → ℚ
  | [] => 0
  | x :: xs => xs.foldl max x

/-- The normalization map `x ↦ clip((x − lo)/(hi − lo), 0, 1)` applied
pointwise to an image (the inner `scale` of `_global_rescale`). -/
def scaleImg (lo hi : ℚ) (x : Img n₀ n₁ n₂) : Img n₀ n₁ n₂ :=
  fun v => min 1 (max 0 ((x v - lo) / (hi - lo)))

/-- Value set used by `_global_rescale`: raw samples inside the foreground
mask, or the whole raw image when that selection is empty. -/
def rescaleVals (raw_img : Img n₀ n₁ n₂) (fg_mask : Mask n₀ n₁ n₂) :
    List ℚ :=
  if (maskedVals raw_img fg_mask).length = 0 then volVals raw_img
  else maskedVals raw_img fg_mask

/-- Embedding of `DefacingVerifier._global_rescale`.  The source's
`np.isfinite` checks on `lo`/`hi` are identically true in the rational
model (every rational is finite), so only the `hi <= lo` test remains of
that condition. -/
def _global_rescale (raw_img defaced_img : Img n₀ n₁ n₂)
    (fg_mask : Mask n₀ n₁ n₂) : Img n₀ n₁ n₂ × Img n₀ n₁ n₂ × ℚ :=
  if percentileQ (rescaleVals raw_img fg_mask) 99 ≤
      percentileQ (rescaleVals raw_img fg_mask) 1 then
    if listMaxQ (rescaleVals raw_img fg_mask) ≤
        listMinQ (rescaleVals raw_img fg_mask) then
      (raw_img, defaced_img, 1)
    else
      (scaleImg (listMinQ (rescaleVals raw_img fg_mask))
          (listMaxQ (rescaleVals raw_img fg_mask)) raw_img,
        scaleImg (listMinQ (rescaleVals raw_img fg_mask))
          (listMaxQ (rescaleVals raw_img fg_mask)) defaced_img, 1)
  else
    (scaleImg (percentileQ (rescaleVals raw_img fg_mask) 1)
        (percentileQ (rescaleVals raw_img fg_mask) 99) raw_img,
      scaleImg (percentileQ (rescaleVals raw_img fg_mask) 1)
        (percentileQ (rescaleVals raw_img fg_mask) 99) defaced_img, 1)

theorem scaleImg_bounds (lo hi : ℚ) (x : Img n₀ n₁ n₂) (v : Vox n₀ n₁ n₂) :
    0 ≤ scaleImg lo hi x v ∧ scaleImg lo hi x v ≤ 1 :=
  ⟨le_min (by norm_num) (le_max_left 0 _), min_le_left _ _⟩

/-- Amended C7: either rescaling takes place and then both returned images
lie in [0, 1] everywhere, or the degenerate fallback is taken and both
images are returned unchanged (and then no range guarantee holds). -/
theorem C7_normalization_range_amended (raw_img defaced_img : Img n₀ n₁ n₂)
    (fg_mask : Mask n₀ n₁ n₂) :
    (∀ v, 0 ≤ (_global_rescale raw_img defaced_img fg_mask).1 v ∧
        (_global_rescale raw_img defaced_img fg_mask).1 v ≤ 1 ∧
        0 ≤ (_global_rescale raw_img defaced_img fg_mask).2.1 v ∧
        (_global_rescale raw_img defaced_img fg_mask).2.1 v ≤ 1) ∨
    ((_global_rescale raw_img defaced_img fg_mask).1 = raw_img ∧
      (_global_rescale raw_img defaced_img fg_mask).2.1 = defaced_img) := by
  unfold _global_rescale
  split_ifs with h1 h2
  · right
    exact ⟨rfl, rfl⟩
  · left
    intro v
    exact ⟨(scaleImg_bounds _ _ _ v).1, (scaleImg_bounds _ _ _ v).2,
      (scaleImg_bounds _ _ _ v).1, (scaleImg_bounds _ _ _ v).2⟩
  · left
    intro v
    exact ⟨(scaleImg_bounds _ _ _ v).1, (scaleImg_bounds _ _ _ v).2,
      (scaleImg_bounds _ _ _ v).1, (scaleImg_bounds _ _ _ v).2⟩

/-- Counterexample to C7 as stated: on a constant raw image the degenerate
path returns the images unchanged, so a constant value 5 stays 5, outside
[0, 1]. -/
theorem C7_normalization_range_counterexample :
    ¬ (∀ v : Vox 1 1 1,
        0 ≤ (_global_rescale ((fun _ => 5) : Img 1 1 1) (fun _ => 5)
          (fun _ => true)).1 v ∧
        (_global_rescale ((fun _ => 5) : Img 1 1 1) (fun _ => 5)
          (fun _ => true)).1 v ≤ 1) := by
  intro h
  have h5 := (h (0, 0, 0)).2
  have hvals : rescaleVals ((fun _ => 5) : Img 1 1 1) (fun _ => true) =
      [5] := rfl
  have hperc1 : percentileQ [(5 : ℚ)] 1 = 5 := by
    norm_num [percentileQ, percentileOfSortedQ, percInterpQ,
      List.insertionSort, List.orderedInsert]
  have hperc99 : percentileQ [(5 : ℚ)] 99 = 5 := by
    norm_num [percentileQ, percentileOfSortedQ, percInterpQ,
      List.insertionSort, List.orderedInsert]
  have hre : (_global_rescale ((fun _ => 5) : Img 1 1 1) (fun _ => 5)
      (fun _ => true)).1 = (fun _ => (5 : ℚ)) := by
    unfold _global_rescale
    rw [hvals, hperc1, hperc99, if_pos le_rfl]
    rw [show listMaxQ [(5 : ℚ)] = 5 from rfl,
      show listMinQ [(5 : ℚ)] = 5 from rfl, if_pos le_rfl]
  rw [hre] at h5
  norm_num at h5

/-- Voxels selected by a boolean mask in numpy C order (`img[m]` order). -/
def maskVoxList (mask : Mask n₀ n₁ n₂) : List (Vox n₀ n₁ n₂) :=
  (rasterList n₀ n₁ n₂).filter fun v => mask v

/-- Mean squared error between two images restricted to a mask:
`diff = img1[m] - img2[m]; mse = np.mean(diff * diff)`. -/
def mseMasked (img1 img2 : Img n₀ n₁ n₂) (mask : Mask n₀ n₁ n₂) : ℚ :=
  (((maskVoxList mask).map fun v =>
      (img1 v - img2 v) * (img1 v - img2 v)).sum) /
    ((maskVoxList mask).length : ℚ)

/-- Embedding of `DefacingVerifier.calculate_psnr_masked`: +∞ for an empty
region, +∞ for non-positive mean squared error, otherwise
`10 * log10(peak² / mse)`. -/
noncomputable def calculate_psnr_masked (img1 img2 : Img n₀ n₁ n₂)
    (mask : Mask n₀ n₁ n₂) (peak : ℚ) : WithTop ℝ :=
  if ¬ ∃ v, mask v = true then ⊤
  else if mseMasked img1 img2 mask ≤ 0 then ⊤
  else ((10 * Real.logb 10
    (((peak * peak : ℚ) : ℝ) / ((mseMasked img1 img2 mask : ℚ) : ℝ)) :
      ℝ) : WithTop ℝ)

/-- C8: the masked PSNR rule with peak 1.0.  Empty region gives +∞, zero
mean squared error gives +∞, and otherwise the value is exactly
`10·log10(peak²/MSE)`; the function is total, so no error is raised. -/
theorem C8_masked_psnr (img1 img2 : Img n₀ n₁ n₂) (mask : Mask n₀ n₁ n₂) :
    ((¬ ∃ v, mask v = true) →
      calculate_psnr_masked img1 img2 mask 1 = ⊤) ∧
    ((∃ v, mask v = true) → mseMasked img1 img2 mask = 0 →
      calculate_psnr_masked img1 img2 mask 1 = ⊤) ∧
    ((∃ v, mask v = true) → 0 < mseMasked img1 img2 mask →
      calculate_psnr_masked img1 img2 mask 1 =
        ((10 * Real.logb 10
          ((1 : ℝ) / ((mseMasked img1 img2 mask : ℚ) : ℝ)) : ℝ) :
            WithTop ℝ)) := by
  refine ⟨?_, ?_, ?_⟩
  · intro he
    rw [calculate_psnr_masked, if_pos he]
  · intro hne hz
    rw [calculate_psnr_masked, if_neg (not_not_intro hne), if_pos hz.le]
  · intro hne hpos
    rw [calculate_psnr_masked, if_neg (not_not_intro hne),
      if_neg (not_le.mpr hpos)]
    norm_num

/-- Witness for C8: the empty-region branch at a concrete input. -/
theorem C8_masked_psnr_witness :
    (¬ ∃ v : Vox 1 1 1, (fun _ => false) v = true) ∧
      calculate_psnr_masked ((fun _ => 1) : Img 1 1 1) (fun _ => 0)
        (fun _ => false) 1 = ⊤ :=
  ⟨by simp, (C8_masked_psnr (fun _ => 1) (fun _ => 0) (fun _ => false)).1
    (by simp)⟩

/-!
Region similarity engine, SSIM part
(`DefacingVerifier.calculate_ssim_masked`).  The inner call is
`skimage.metrics.structural_similarity(a, b, data_range=1.0, win_size=win)`,
embedded below with its default configuration: uniform (non-Gaussian)
windows, sample covariance normalisation `NP/(NP-1)`, `K1 = 0.01`,
`K2 = 0.03`, and `reflect` boundary handling.
-/

/-- Index folding of scipy's default boundary mode `reflect`
(`d c b a | a b c d | d c b a`), used by `uniform_filter`. -/
def reflectN (n : ℕ) (i : ℤ) : ℕ :=
  (if i.emod (2 * (n : ℤ)) < (n : ℤ) then i.emod (2 * (n : ℤ))
   else 2 * (n : ℤ) - 1 - i.emod (2 * (n : ℤ))).toNat

/-- Bounds-checked image lookup; in every use below the index is inside
the image, so the zero default is never taken. -/
def getQv (img : Img n₀ n₁ n₂) (y x : ℕ) (z : Fin n₂) : ℚ :=
  if hy : y < n₀ then if hx : x < n₁ then img (⟨y, hy⟩, ⟨x, hx⟩, z) else 0
  else 0

/-- Cropped 2-D slice patch `img[y0:y1+1, x0:x1+1, z]` as a function of
patch coordinates. -/
def patchAt (img : Img n₀ n₁ n₂) (y0 x0 : ℕ) (z : Fin n₂) : ℕ × ℕ → ℚ :=
  fun ij => getQv img (y0 + ij.1) (x0 + ij.2) z

/-- One output sample of `scipy.ndimage.uniform_filter(f, size=win)` on an
`hh × ww` patch: the mean of the window centred at `p`, with reflected
boundary; `win` is odd in every use, so the offsets run from `-(win/2)` to
`win/2`. -/
def ufAt (hh ww win : ℕ) (f : ℕ × ℕ → ℚ) (p : ℕ × ℕ) : ℚ :=
  (∑ d : Fin win × Fin win,
      f (reflectN hh ((p.1 : ℤ) + (d.1 : ℤ) - ((win / 2 : ℕ) : ℤ)),
        reflectN ww ((p.2 : ℤ) + (d.2 : ℤ) - ((win / 2 : ℕ) : ℤ)))) /
    ((win : ℚ) * win)

/-- One sample of the SSIM map `S = (A1·A2)/(B1·B2)` of
`structural_similarity` with `data_range=1`:  `C1 = (0.01)² = 1/10000`,
`C2 = (0.03)² = 9/10000`, sample-covariance factor `NP/(NP-1)` with
`NP = win²`. -/
def ssimS (hh ww win : ℕ) (x y : ℕ × ℕ → ℚ) (p : ℕ × ℕ) : ℚ :=
  (2 * ufAt hh ww win x p * ufAt hh ww win y p + 1 / 10000) *
      (2 * ((((win : ℚ) * win) / ((win : ℚ) * win - 1)) *
          (ufAt hh ww win (fun q => x q * y q) p -
            ufAt hh ww win x p * ufAt hh ww win y p)) + 9 / 10000) /
    ((ufAt hh ww win x p * ufAt hh ww win x p +
        ufAt hh ww win y p * ufAt hh ww win y p + 1 / 10000) *
      ((((win : ℚ) * win) / ((win : ℚ) * win - 1)) *
          (ufAt hh ww win (fun q => x q * x q) p -
            ufAt hh ww win x p * ufAt hh ww win x p) +
        (((win : ℚ) * win) / ((win : ℚ) * win - 1)) *
          (ufAt hh ww win (fun q => y q * y q) p -
            ufAt hh ww win y p * ufAt hh ww win y p) + 9 / 10000))

/-- Mean of the SSIM map over `crop(S, pad)` with `pad = (win − 1) // 2`,
the return value of `structural_similarity`. -/
def ssimPatch (hh ww win : ℕ) (x y : ℕ × ℕ → ℚ) : ℚ :=
  (∑ p ∈ Finset.Ico ((win - 1) / 2) (hh - (win - 1) / 2) ×ˢ
      Finset.Ico ((win - 1) / 2) (ww - (win - 1) / 2),
    ssimS hh ww win x y p) /
    (((Finset.Ico ((win - 1) / 2) (hh - (win - 1) / 2) ×ˢ
      Finset.Ico ((win - 1) / 2) (ww - (win - 1) / 2)).card : ℚ))

/-- Population variance of an `hh × ww` patch (`np.var`); the source's
guard `a.std() < 1e-8` is equivalent to `var < 1e-16` exactly, since
`std = sqrt(var)` and both sides are nonnegative. -/
def varPatch (hh ww : ℕ) (a : ℕ × ℕ → ℚ) : ℚ :=
  (∑ p : Fin hh × Fin ww, a ((p.1 : ℕ), (p.2 : ℕ)) * a ((p.1 : ℕ), (p.2 : ℕ))) /
      ((hh * ww : ℕ) : ℚ) -
    ((∑ p : Fin hh × Fin ww, a ((p.1 : ℕ), (p.2 : ℕ))) / ((hh * ww : ℕ) : ℚ)) *
      ((∑ p : Fin hh × Fin ww, a ((p.1 : ℕ), (p.2 : ℕ))) / ((hh * ww : ℕ) : ℚ))

/-- In-plane support of the mask on slice `z` (`mask[:, :, z]`). -/
def sliceMask (mask : Mask n₀ n₁ n₂) (z : Fin n₂) : Finset (Fin n₀ × Fin n₁) :=
  Finset.univ.filter fun yx => mask (yx.1, yx.2, z) = true

/-- Bounding-box extremes `yx.min(0)` / `yx.max(0)` of a slice mask. -/
def bbMinY (ms : Finset (Fin n₀ × Fin n₁)) : ℕ :=
  ((ms.image fun p => (p.1 : ℕ)).min).untop' 0

def bbMaxY (ms : Finset (Fin n₀ × Fin n₁)) : ℕ :=
  ((ms.image fun p => (p.1 : ℕ)).max).unbot' 0

def bbMinX (ms : Finset (Fin n₀ × Fin n₁)) : ℕ :=
  ((ms.image fun p => (p.2 : ℕ)).min).untop' 0

def bbMaxX (ms : Finset (Fin n₀ × Fin n₁)) : ℕ :=
  ((ms.image fun p => (p.2 : ℕ)).max).unbot' 0

/-- Height `y1 - y0 + 1` of the cropped slice patch. -/
def sliceH (mask : Mask n₀ n₁ n₂) (z : Fin n₂) : ℕ :=
  bbMaxY (sliceMask mask z) + 1 - bbMinY (sliceMask mask z)

/-- Width `x1 - x0 + 1` of the cropped slice patch. -/
def sliceW (mask : Mask n₀ n₁ n₂) (z : Fin n₂) : ℕ :=
  bbMaxX (sliceMask mask z) + 1 - bbMinX (sliceMask mask z)

/-- Window-size rule of the source: `win = min(7, min_side)`, decremented
if even, floored at 3. -/
def winOf (hh ww : ℕ) : ℕ :=
  max 3 (if min 7 (min hh ww) % 2 = 0 then min 7 (min hh ww) - 1
    else min 7 (min hh ww))

/-- Per-slice body of `calculate_ssim_masked`: `none` when the slice is
skipped (coverage below 25 voxels, cropped side below 3, or a flat patch),
otherwise the slice's SSIM value. -/
def sliceVal (img1 img2 : Img n₀ n₁ n₂) (mask : Mask n₀ n₁ n₂)
    (z : Fin n₂) : Option ℚ :=
  if (sliceMask mask z).card < 25 then none
  else if min (sliceH mask z) (sliceW mask z) < 3 then none
  else if varPatch (sliceH mask z) (sliceW mask z)
        (patchAt img1 (bbMinY (sliceMask mask z)) (bbMinX (sliceMask mask z))
          z) < 1 / 10 ^ 16 ∨
      varPatch (sliceH mask z) (sliceW mask z)
        (patchAt img2 (bbMinY (sliceMask mask z)) (bbMinX (sliceMask mask z))
          z) < 1 / 10 ^ 16 then none
  else some (ssimPatch (sliceH mask z) (sliceW mask z)
    (winOf (sliceH mask z) (sliceW mask z))
    (patchAt img1 (bbMinY (sliceMask mask z)) (bbMinX (sliceMask mask z)) z)
    (patchAt img2 (bbMinY (sliceMask mask z)) (bbMinX (sliceMask mask z)) z))

/-- Embedding of `DefacingVerifier.calculate_ssim_masked`: mean of the
per-slice SSIM values along the stacking axis, `1.0` when no slice
qualifies. -/
def calculate_ssim_masked (img1 img2 : Img n₀ n₁ n₂)
    (mask : Mask n₀ n₁ n₂) : ℚ :=
  if ((List.finRange n₂).filterMap (sliceVal img1 img2 mask)).length = 0
    then 1
  else ((List.finRange n₂).filterMap (sliceVal img1 img2 mask)).sum /
    (((List.finRange n₂).filterMap (sliceVal img1 img2 mask)).length : ℚ)

/-- Jensen's inequality for a window mean: the mean of squares dominates
the square of the mean. -/
theorem mean_sq_nonneg {k : ℕ} (hk : 0 < k) (g : Fin k × Fin k → ℚ) :
    0 ≤ (∑ d, g d * g d) / ((k : ℚ) * k) -
      ((∑ d, g d) / ((k : ℚ) * k)) * ((∑ d, g d) / ((k : ℚ) * k)) := by
  have hN : (0 : ℚ) < (k : ℚ) * k := by positivity
  have key : (∑ d, g d) ^ 2 ≤ ((k : ℚ) * k) * ∑ d, g d ^ 2 := by
    have h1 : (((Finset.univ : Finset (Fin k × Fin k)).card : ℚ)) =
        (k : ℚ) * k := by
      simp
    rw [← h1]
    exact sq_sum_le_card_mul_sum_sq
  have h2 : (∑ d, g d * g d) = ∑ d, g d ^ 2 :=
    Finset.sum_congr rfl fun d _ => (pow_two (g d)).symm
  rw [sub_nonneg, h2]
  have e1 : ((∑ d, g d) / ((k : ℚ) * k)) * ((∑ d, g d) / ((k : ℚ) * k)) =
      (∑ d, g d) ^ 2 / (((k : ℚ) * k) * ((k : ℚ) * k)) := by
    ring
  have e2 : (((k : ℚ) * k) * ∑ d, g d ^ 2) / (((k : ℚ) * k) * ((k : ℚ) * k)) =
      (∑ d, g d ^ 2) / ((k : ℚ) * k) :=
    mul_div_mul_left _ _ hN.ne'
  rw [e1, ← e2]
  exact (div_le_div_iff_of_pos_right (by positivity)).mpr key

/-- The SSIM map is identically 1 when both inputs are the same patch. -/
theorem ssimS_self (hh ww win : ℕ) (hwin : 3 ≤ win) (x : ℕ × ℕ → ℚ)
    (p : ℕ × ℕ) : ssimS hh ww win x x p = 1 := by
  have hvar : 0 ≤ ufAt hh ww win (fun q => x q * x q) p -
      ufAt hh ww win x p * ufAt hh ww win x p := by
    have h := mean_sq_nonneg (show 0 < win by omega)
      (fun d : Fin win × Fin win =>
        x (reflectN hh ((p.1 : ℤ) + (d.1 : ℤ) - ((win / 2 : ℕ) : ℤ)),
          reflectN ww ((p.2 : ℤ) + (d.2 : ℤ) - ((win / 2 : ℕ) : ℤ))))
    exact h
  have hN9 : (9 : ℚ) ≤ (win : ℚ) * win := by
    have h3 : (3 : ℚ) ≤ (win : ℚ) := by exact_mod_cast hwin
    nlinarith
  have hcn : 0 < ((win : ℚ) * win) / ((win : ℚ) * win - 1) := by
    apply div_pos (by linarith) (by linarith)
  unfold ssimS
  set u := ufAt hh ww win x p with hu
  set w := ufAt hh ww win (fun q => x q * x q) p with hw
  set cn := ((win : ℚ) * win) / ((win : ℚ) * win - 1) with hcn2
  have hden1 : 0 < u * u + u * u + 1 / 10000 := by
    have hu2 : 0 ≤ u * u := mul_self_nonneg u
    linarith
  have hden2 : 0 < cn * (w - u * u) + cn * (w - u * u) + 9 / 10000 := by
    have hm : 0 ≤ cn * (w - u * u) := mul_nonneg hcn.le hvar
    linarith
  rw [div_eq_one_iff_eq (mul_ne_zero hden1.ne' hden2.ne')]
  ring

/-- Shape facts about the window-size rule when the cropped patch has both
sides at least 3. -/
theorem winOf_spec (hh ww : ℕ) (h : 3 ≤ min hh ww) :
    3 ≤ winOf hh ww ∧ winOf hh ww % 2 = 1 ∧ winOf hh ww ≤ hh ∧
      winOf hh ww ≤ ww := by
  unfold winOf
  split_ifs with he <;> omega

/-- SSIM of a qualifying patch against itself is exactly 1. -/
theorem ssimPatch_self (hh ww win : ℕ) (hwin3 : 3 ≤ win)
    (hodd : win % 2 = 1) (hwh : win ≤ hh) (hww : win ≤ ww)
    (x : ℕ × ℕ → ℚ) : ssimPatch hh ww win x x = 1 := by
  unfold ssimPatch
  rw [Finset.sum_congr rfl fun p _ => ssimS_self hh ww win hwin3 x p]
  rw [Finset.sum_const, nsmul_eq_mul, mul_one]
  have hcard : 0 < ((Finset.Ico ((win - 1) / 2) (hh - (win - 1) / 2) ×ˢ
      Finset.Ico ((win - 1) / 2) (ww - (win - 1) / 2)).card) := by
    rw [Finset.card_product, Nat.card_Ico, Nat.card_Ico]
    have : (win - 1) / 2 * 2 = win - 1 := by omega
    apply Nat.mul_pos <;> omega
  exact div_self (by exact_mod_cast hcard.ne')

/-- Each slice either is skipped or contributes exactly 1 when the two
images are identical. -/
theorem sliceVal_self (img : Img n₀ n₁ n₂) (mask : Mask n₀ n₁ n₂)
    (z : Fin n₂) :
    sliceVal img img mask z = none ∨ sliceVal img img mask z = some 1 := by
  unfold sliceVal
  split_ifs with h1 h2 h3
  · exact Or.inl rfl
  · exact Or.inl rfl
  · exact Or.inl rfl
  · right
    have hmin : 3 ≤ min (sliceH mask z) (sliceW mask z) := by omega
    obtain ⟨hw3, hwodd, hwh, hww⟩ := winOf_spec _ _ hmin
    rw [ssimPatch_self _ _ _ hw3 hwodd hwh hww]

theorem mean_of_ones (l : List ℚ) (h : ∀ x ∈ l, x = 1) :
    (if l.length = 0 then (1 : ℚ) else l.sum / (l.length : ℚ)) = 1 := by
  have hsum : ∀ (t : List ℚ), (∀ x ∈ t, x = 1) → t.sum = (t.length : ℚ) := by
    intro t
    induction t with
    | nil => simp
    | cons a r ih =>
      intro ht
      have ha : a = 1 := ht a (by simp)
      have hr := ih fun x hx => ht x (by simp [hx])
      simp [ha, hr]
      ring
  rcases Nat.eq_zero_or_pos l.length with h0 | hpos
  · rw [if_pos h0]
  · rw [if_neg hpos.ne', hsum l h]
    exact div_self (by exact_mod_cast hpos.ne')

/-- C9: bit-identical raw and candidate images give masked SSIM exactly 1.0
and masked PSNR +∞, and the gate rejects (`ssim 1.0 > 0.80`), whatever the
surface metrics are. -/
theorem C9_identical_images_fail (img : Img n₀ n₁ n₂)
    (mask : Mask n₀ n₁ n₂) :
    calculate_ssim_masked img img mask = 1 ∧
      calculate_psnr_masked img img mask 1 = ⊤ ∧
      ∀ (dsc : ℚ) (hd95 : WithTop ℚ), _check_pass dsc hd95 1 ⊤ = false := by
  refine ⟨?_, ?_, ?_⟩
  · unfold calculate_ssim_masked
    apply mean_of_ones
    intro x hx
    rw [List.mem_filterMap] at hx
    obtain ⟨z, _, hval⟩ := hx
    rcases sliceVal_self img mask z with h | h
    · rw [h] at hval
      exact absurd hval (by simp)
    · rw [h] at hval
      exact (Option.some_inj.mp hval).symm
  · have hmse : mseMasked img img mask = 0 := by
      unfold mseMasked
      simp
    unfold calculate_psnr_masked
    by_cases h1 : ∃ v, mask v = true
    · rw [if_neg (not_not_intro h1), if_pos (le_of_eq hmse)]
    · rw [if_pos h1]
  · intro dsc hd95
    unfold _check_pass
    simp only [decide_eq_false_iff_not]
    rintro ⟨-, -, h3, -⟩
    norm_num [TARGETS] at h3

/-!
Foreground extractor fallback (`DefacingVerifier.get_foreground_mask`,
`except` branch).  The primary path delegates to the external nnU-Net
collaborator and is out of scope; the fallback is: threshold at the 5th
intensity percentile (strictly above), label connected components with
`ndimage.label` (whose default structuring element is the face-connected
6-neighbour one), keep the largest component by voxel count (first label
on ties, as `np.argmax` returns the first maximum), and fill enclosed
holes with `ndimage.binary_fill_holes` (default structure, 6-connected
background flood from the border).
-/

/-- All 26 offsets of the full 3-D neighbourhood (used only by the
claim-following variant below). -/
def offs26 : List (ℤ × ℤ × ℤ) :=
  (([-1, 0, 1].flatMap fun a => [-1, 0, 1].flatMap fun b =>
    [-1, 0, 1].map fun c => ((a : ℤ), (b : ℤ), (c : ℤ)))).filter
    fun d => d ≠ (0, 0, 0)

/-- Adjacency of two voxels under a list of structuring offsets. -/
def adjB (offs : List (ℤ × ℤ × ℤ)) (u v : Vox n₀ n₁ n₂) : Bool :=
  offs.any fun d => zc v = zc u + d

/-- One growth step of a connected component of `m` under `offs`. -/
def compStep (offs : List (ℤ × ℤ × ℤ)) (m : Mask n₀ n₁ n₂)
    (s : Finset (Vox n₀ n₁ n₂)) : Finset (Vox n₀ n₁ n₂) :=
  s ∪ Finset.univ.filter fun v => m v = true ∧ ∃ u ∈ s, adjB offs u v = true

/-- Connected component of `m` containing `v₀`: the growth step is
inflationary on a grid of `card` voxels, so `card` steps reach the
fixpoint. -/
def reachWith (offs : List (ℤ × ℤ × ℤ)) (m : Mask n₀ n₁ n₂)
    (v₀ : Vox n₀ n₁ n₂) : Finset (Vox n₀ n₁ n₂) :=
  (compStep offs m)^[Fintype.card (Vox n₀ n₁ n₂)] {v₀}

/-- Raster scan of `ndimage.label`: a new component is opened at each
mask voxel not yet labelled, in numpy C order, so the component list is in
first-encounter order exactly as the label numbers are. -/
def compsAux (offs : List (ℤ × ℤ × ℤ)) (m : Mask n₀ n₁ n₂) :
    List (Vox n₀ n₁ n₂) → List (Finset (Vox n₀ n₁ n₂)) →
      List (Finset (Vox n₀ n₁ n₂))
  | [], acc => acc
  | v :: rest, acc =>
    if m v = true ∧ ∀ s ∈ acc, v ∉ s then
      compsAux offs m rest (acc ++ [reachWith offs m v])
    else compsAux offs m rest acc

/-- Components of `m` in label order. -/
def compsWith (offs : List (ℤ × ℤ × ℤ)) (m : Mask n₀ n₁ n₂) :
    List (Finset (Vox n₀ n₁ n₂)) :=
  compsAux offs m (rasterList n₀ n₁ n₂) []

/-- Index of the first maximum of a list (`np.argmax` tie rule). -/
def argmaxIdx : List ℕ → ℕ
  | [] => 0
  | x :: xs => if x < xs.getD (argmaxIdx xs) 0 then argmaxIdx xs + 1 else 0

/-- The `if n > 0: m = (lbl == largest)` step of the fallback: keep only
the component of maximal voxel count (`1 + argmax(sizes)`); with no
components the mask is left unchanged (it is then empty). -/
def largestCompWith (offs : List (ℤ × ℤ × ℤ)) (m : Mask n₀ n₁ n₂) :
    Mask n₀ n₁ n₂ :=
  if (compsWith offs m).length = 0 then m
  else fun v => decide (v ∈ (compsWith offs m).getD
    (argmaxIdx ((compsWith offs m).map Finset.card)) ∅)

/-- Bounds test for integer coordinates. -/
def inGridB (n₀ n₁ n₂ : ℕ) (p : ℤ × ℤ × ℤ) : Bool :=
  decide (0 ≤ p.1 ∧ p.1 < (n₀ : ℤ) ∧ 0 ≤ p.2.1 ∧ p.2.1 < (n₁ : ℤ) ∧
    0 ≤ p.2.2 ∧ p.2.2 < (n₂ : ℤ))

/-- Background voxels on the array border, the flood-fill seed of
`binary_fill_holes` (the conceptual outside of the array). -/
def borderSeed (m : Mask n₀ n₁ n₂) : Finset (Vox n₀ n₁ n₂) :=
  Finset.univ.filter fun v => m v = false ∧
    (offs6.any fun d => !(inGridB n₀ n₁ n₂ (zc v + d))) = true

/-- One growth step of the border-connected background. -/
def bgStep (m : Mask n₀ n₁ n₂) (s : Finset (Vox n₀ n₁ n₂)) :
    Finset (Vox n₀ n₁ n₂) :=
  s ∪ Finset.univ.filter fun v => m v = false ∧ ∃ u ∈ s, adjB offs6 u v = true

/-- Background reachable from the border under 6-connectivity (the step is
inflationary, so `card` iterations reach the fixpoint). -/
def bgReach (m : Mask n₀ n₁ n₂) : Finset (Vox n₀ n₁ n₂) :=
  (bgStep m)^[Fintype.card (Vox n₀ n₁ n₂)] (borderSeed m)

/-- Embedding of `ndimage.binary_fill_holes`: everything that is not
background reachable from the border. -/
def fillHoles (m : Mask n₀ n₁ n₂) : Mask n₀ n₁ n₂ :=
  fun v => decide (v ∉ bgReach m)

/-- The 5th-percentile threshold `np.percentile(defaced_img, 5)`. -/
def fgThreshold (img : Img n₀ n₁ n₂) : ℚ := percentileQ (volVals img) 5

/-- The thresholded mask `defaced_img > thr` (strictly above). -/
def thresholdMask (img : Img n₀ n₁ n₂) : Mask n₀ n₁ n₂ :=
  fun v => decide (fgThreshold img < img v)

/-- Embedding of the deterministic fallback branch of
`get_foreground_mask`. -/
def get_foreground_mask_fallback (img : Img n₀ n₁ n₂) : Mask n₀ n₁ n₂ :=
  fillHoles (largestCompWith offs6 (thresholdMask img))

/-- Variant written from the claim's words (for the refinement
comparison): identical to the fallback except that the connected
components are labelled under full 3-D 26-neighbour connectivity. -/
def foregroundFallback26 (img : Img n₀ n₁ n₂) : Mask n₀ n₁ n₂ :=
  fillHoles (largestCompWith offs26 (thresholdMask img))

/-- Concrete counterexample input for the connectivity rule: a 2×2×1
volume whose two above-threshold voxels are diagonal neighbours. -/
def imgC6 : Img 2 2 1 := fun v => if (v.1 : ℕ) = (v.2.1 : ℕ) then 10 else 0

theorem percentileQ_imgC6 : percentileQ [(10 : ℚ), 0, 0, 10] 5 = 0 := by
  have hsort : (([(10 : ℚ), 0, 0, 10]).insertionSort fun x y => x ≤ y) =
      [0, 0, 10, 10] := by
    norm_num [List.insertionSort, List.orderedInsert]
  unfold percentileQ
  rw [hsort]
  unfold percentileOfSortedQ percInterpQ
  rw [if_neg (by norm_num)]
  have hfl : ⌊((([(0 : ℚ), 0, 10, 10]).length - 1 : ℕ) : ℚ) * 5 / 100⌋ =
      0 := by
    rw [Int.floor_eq_zero_iff]
    rw [Set.mem_Ico]
    constructor <;> norm_num
  rw [hfl]
  norm_num

theorem thresholdMask_imgC6 :
    thresholdMask imgC6 = fun v => decide ((v.1 : ℕ) = (v.2.1 : ℕ)) := by
  have hvol : volVals imgC6 = [10, 0, 0, 10] := rfl
  have hthr : fgThreshold imgC6 = 0 := by
    unfold fgThreshold
    rw [hvol, percentileQ_imgC6]
  funext v
  unfold thresholdMask
  rw [hthr]
  unfold imgC6
  by_cases hd : (v.1 : ℕ) = (v.2.1 : ℕ) <;> simp [hd]

/-- Counterexample to C6's connectivity rule: on `imgC6` the code's
labelling (6-connected, scipy default) keeps only one diagonal voxel,
while the claim's 26-connected labelling keeps both. -/
theorem C6_foreground_fallback_counterexample :
    get_foreground_mask_fallback imgC6 ≠ foregroundFallback26 imgC6 := by
  intro hEq
  have h1 : get_foreground_mask_fallback imgC6 (1, 1, 0) = false := by
    unfold get_foreground_mask_fallback
    rw [thresholdMask_imgC6]
    decide
  have h2 : foregroundFallback26 imgC6 (1, 1, 0) = true := by
    unfold foregroundFallback26
    rw [thresholdMask_imgC6]
    decide
  rw [hEq] at h1
  rw [h2] at h1
  exact Bool.noConfusion h1

theorem mem_rasterList (v : Vox n₀ n₁ n₂) : v ∈ rasterList n₀ n₁ n₂ := by
  unfold rasterList
  rw [List.mem_flatMap]
  refine ⟨v.1, List.mem_finRange _, ?_⟩
  rw [List.mem_flatMap]
  refine ⟨v.2.1, List.mem_finRange _, ?_⟩
  rw [List.mem_map]
  exact ⟨v.2.2, List.mem_finRange _, rfl⟩

theorem compsAux_const_false (offs : List (ℤ × ℤ × ℤ)) :
    ∀ (l : List (Vox n₀ n₁ n₂)) (acc : List (Finset (Vox n₀ n₁ n₂))),
      compsAux offs (fun _ => false) l acc = acc := by
  intro l
  induction l with
  | nil => intro acc; rfl
  | cons a t ih =>
    intro acc
    unfold compsAux
    rw [if_neg (by simp)]
    exact ih acc

theorem compsAux_ne_nil (offs : List (ℤ × ℤ × ℤ)) (m : Mask n₀ n₁ n₂) :
    ∀ (l : List (Vox n₀ n₁ n₂)) (acc : List (Finset (Vox n₀ n₁ n₂))),
      ((∃ v ∈ l, m v = true) ∨ acc ≠ []) → compsAux offs m l acc ≠ [] := by
  intro l
  induction l with
  | nil =>
    intro acc h
    rcases h with ⟨v, hv, _⟩ | h
    · simp at hv
    · simpa [compsAux] using h
  | cons a t ih =>
    intro acc h
    unfold compsAux
    split_ifs with hc
    · exact ih _ (Or.inr (by simp))
    · rcases h with ⟨v, hv, hmv⟩ | hacc
      · rw [List.mem_cons] at hv
        rcases hv with rfl | hv
        · have hnot : ¬ (∀ s ∈ acc, v ∉ s) := fun hall => hc ⟨hmv, hall⟩
          push_neg at hnot
          obtain ⟨s, hs, -⟩ := hnot
          refine ih _ (Or.inr ?_)
          rintro rfl
          simp at hs
        · exact ih _ (Or.inl ⟨v, hv, hmv⟩)
      · exact ih _ (Or.inr hacc)

theorem argmaxIdx_lt (l : List ℕ) (h : l ≠ []) : argmaxIdx l < l.length := by
  induction l with
  | nil => exact absurd rfl h
  | cons x xs ih =>
    unfold argmaxIdx
    split_ifs with hlt
    · have hxs : xs ≠ [] := by
        rintro rfl
        rw [List.getD_nil] at hlt
        omega
      have := ih hxs
      simp only [List.length_cons]
      omega
    · simp

theorem argmaxIdx_le (l : List ℕ) :
    ∀ i, i < l.length → l.getD i 0 ≤ l.getD (argmaxIdx l) 0 := by
  induction l with
  | nil =>
    intro i hi
    simp at hi
  | cons x xs ih =>
    intro i hi
    unfold argmaxIdx
    split_ifs with hlt
    · cases i with
      | zero => simpa using hlt.le
      | succ i =>
        have hi' : i < xs.length := by simpa using hi
        simpa using ih i hi'
    · cases i with
      | zero => simp
      | succ i =>
        have hi' : i < xs.length := by simpa using hi
        have h1 := ih i hi'
        have h2 : xs.getD (argmaxIdx xs) 0 ≤ x := not_lt.mp hlt
        simp only [List.getD_cons_succ, List.getD_cons_zero]
        omega

theorem bgStep_iterate_subset (m : Mask n₀ n₁ n₂)
    (s : Finset (Vox n₀ n₁ n₂)) {j K : ℕ} (h : j ≤ K) :
    (bgStep m)^[j] s ⊆ (bgStep m)^[K] s := by
  induction K with
  | zero =>
    rw [Nat.le_zero.mp h]
  | succ K ih =>
    rcases Nat.lt_or_ge j (K + 1) with hj | hj
    · rw [Function.iterate_succ_apply']
      exact (ih (Nat.lt_succ_iff.mp hj)).trans Finset.subset_union_left
    · rw [le_antisymm h hj]

/-- Walk to the border: in an all-background grid the voxel with first
coordinate `i` is flooded after `i` steps. -/
theorem bgWalk (j : Fin n₁) (k : Fin n₂) :
    ∀ (i : ℕ) (hi : i < n₀),
      ((⟨i, hi⟩ : Fin n₀), j, k) ∈
        (bgStep (fun _ => false : Mask n₀ n₁ n₂))^[i]
          (borderSeed (fun _ => false)) := by
  intro i
  induction i with
  | zero =>
    intro hi
    rw [Function.iterate_zero, id_eq]
    unfold borderSeed
    rw [Finset.mem_filter]
    refine ⟨Finset.mem_univ _, rfl, ?_⟩
    rw [List.any_eq_true]
    refine ⟨(-1, 0, 0), by simp [offs6], ?_⟩
    rw [Bool.not_eq_true']
    unfold inGridB
    rw [decide_eq_false_iff_not]
    intro hc
    have h1 := hc.1
    simp [zc] at h1
  | succ i ih =>
    intro hi
    rw [Function.iterate_succ_apply']
    apply Finset.mem_union_right
    rw [Finset.mem_filter]
    refine ⟨Finset.mem_univ _, rfl, ⟨(⟨i, by omega⟩, j, k), ih (by omega), ?_⟩⟩
    unfold adjB
    rw [List.any_eq_true]
    refine ⟨(1, 0, 0), by simp [offs6], ?_⟩
    rw [decide_eq_true_eq]
    simp only [zc, Prod.mk_add_mk, Prod.mk.injEq]
    refine ⟨?_, by omega, by omega⟩
    push_cast
    omega

theorem fillHoles_false :
    fillHoles (fun _ => false : Mask n₀ n₁ n₂) = fun _ => false := by
  funext v
  unfold fillHoles
  rw [decide_eq_false_iff_not, Decidable.not_not]
  obtain ⟨⟨i, hi⟩, j, k⟩ := v
  have hwalk := bgWalk j k i hi
  have hle : i ≤ Fintype.card (Vox n₀ n₁ n₂) := by
    have h1 : 0 < n₁ := j.pos
    have h2 : 0 < n₂ := k.pos
    have hcard : Fintype.card (Vox n₀ n₁ n₂) = n₀ * (n₁ * n₂) := by
      simp [Fintype.card_prod]
    have : n₀ ≤ n₀ * (n₁ * n₂) := Nat.le_mul_of_pos_right n₀ (by positivity)
    omega
  exact bgStep_iterate_subset _ _ hle hwalk

/-- Amended C6: the fallback thresholds at the 5th percentile (strictly
above), labels connected components under face-connected 6-neighbour
connectivity (the `ndimage.label` default), keeps a component of maximal
voxel count, and fills enclosed holes; when no voxel exceeds the threshold
the result is the empty mask (the result is a boolean mask of the input's
shape by construction). -/
theorem C6_foreground_fallback_amended (img : Img n₀ n₁ n₂) :
    ((∀ v, img v ≤ fgThreshold img) →
      get_foreground_mask_fallback img = fun _ => false) ∧
    ((∃ v, fgThreshold img < img v) →
      ∃ C ∈ compsWith offs6 (thresholdMask img),
        (∀ D ∈ compsWith offs6 (thresholdMask img), D.card ≤ C.card) ∧
          get_foreground_mask_fallback img =
            fillHoles fun v => decide (v ∈ C)) := by
  constructor
  · intro h
    have hm : thresholdMask img = fun _ => false := by
      funext v
      unfold thresholdMask
      simp [not_lt.mpr (h v)]
    unfold get_foreground_mask_fallback
    rw [hm]
    have hcomps : compsWith offs6 (fun _ => false : Mask n₀ n₁ n₂) = [] :=
      compsAux_const_false offs6 _ []
    have hlarge : largestCompWith offs6 (fun _ => false : Mask n₀ n₁ n₂) =
        fun _ => false := by
      unfold largestCompWith
      rw [if_pos (by rw [hcomps]; rfl)]
    rw [hlarge, fillHoles_false]
  · rintro ⟨v₀, hv₀⟩
    have hmv : thresholdMask img v₀ = true := by
      unfold thresholdMask
      simpa using hv₀
    have hne : compsWith offs6 (thresholdMask img) ≠ [] :=
      compsAux_ne_nil offs6 _ _ _ (Or.inl ⟨v₀, mem_rasterList v₀, hmv⟩)
    have hargmax : argmaxIdx ((compsWith offs6 (thresholdMask img)).map
        Finset.card) < (compsWith offs6 (thresholdMask img)).length := by
      have := argmaxIdx_lt ((compsWith offs6 (thresholdMask img)).map
        Finset.card) (by simpa using hne)
      simpa using this
    refine ⟨(compsWith offs6 (thresholdMask img)).getD
      (argmaxIdx ((compsWith offs6 (thresholdMask img)).map Finset.card)) ∅,
      ?_, ?_, ?_⟩
    · rw [List.getD_eq_getElem _ _ hargmax]
      exact List.getElem_mem _
    · intro D hD
      obtain ⟨i, hi, rfl⟩ := List.mem_iff_getElem.mp hD
      have h1 := argmaxIdx_le ((compsWith offs6 (thresholdMask img)).map
        Finset.card) i (by simpa using hi)
      rw [List.getD_eq_getElem _ _ (by simpa using hi),
        List.getElem_map] at h1
      rw [List.getD_eq_getElem _ _ (by simpa using hargmax),
        List.getElem_map] at h1
      rw [List.getD_eq_getElem _ _ hargmax]
      exact h1
    · unfold get_foreground_mask_fallback largestCompWith
      rw [if_neg (by simpa using hne)]

set_option maxHeartbeats 1000000 in
/-- Witness for C6 (amended): the all-zero 1×1×1 image is entirely at the
threshold, and the fallback returns the empty mask. -/
theorem C6_foreground_fallback_amended_witness :
    (∀ v : Vox 1 1 1, ((fun _ => 0) : Img 1 1 1) v ≤
      fgThreshold ((fun _ => 0) : Img 1 1 1)) ∧
      get_foreground_mask_fallback ((fun _ => 0) : Img 1 1 1) =
        fun _ => false := by
  have h0 : fgThreshold ((fun _ => 0) : Img 1 1 1) = 0 := by
    unfold fgThreshold
    rw [show volVals ((fun _ => 0) : Img 1 1 1) = [0] from rfl]
    unfold percentileQ
    rw [show (([(0 : ℚ)].insertionSort fun x y => x ≤ y)) = [0] from rfl]
    unfold percentileOfSortedQ percInterpQ
    norm_num
  have hz : ∀ v : Vox 1 1 1, ((fun _ => 0) : Img 1 1 1) v ≤
      fgThreshold ((fun _ => 0) : Img 1 1 1) := by
    intro v
    rw [h0]
  exact ⟨hz, (C6_foreground_fallback_amended ((fun _ => 0) : Img 1 1 1)).1 hz⟩
